import Mathlib

/-!
Shallow embedding of the move-generation core of the chess program
(`src/main.rs`).  The only algorithmic function of the program is
`get_possible_moves` (together with its helper `get_allies_and_enemies`);
everything else in the source is engine glue (rendering, input, asset
loading) with no bearing on the claims.  The embedding below translates
those two functions definition-for-definition:

* `BoardPosition`, `Piece`, `Player` mirror the Rust types of the same
  names (squares use unbounded `Int` coordinates, exactly as the Rust
  code uses `i32` — no coordinate arithmetic in the source can overflow
  an `i32` for the inputs considered, since every operation adds an
  offset of absolute value at most 2 or multiplies a unit direction by a
  chain index the loop keeps below 9 for the origins quantified over).
* The Rust `Vec<&BoardPosition>` occupancy collections become
  `List BoardPosition`; `Vec::contains` becomes list membership.
* The `while path` sliding loop of the Bishop/Rook arms becomes the
  fuel-indexed recursion `slide`.  The Rust loop stops at the *first*
  square that is out of range or ally-occupied, and eight consecutive
  in-range squares already span a whole file/rank/diagonal, so the loop
  body can execute at most 8 pushing iterations from any starting point
  whatsoever; fuel 8 therefore reproduces the loop exactly on all inputs.
-/

namespace ChessBevy

/-- Mirrors the Rust `BoardPosition` component: a square as a pair of
`i32` coordinates (`x` = file, `y` = rank). -/
structure BoardPosition where
  x : Int
  y : Int
deriving DecidableEq, Repr

/-- Mirrors the Rust `Piece` enum. -/
inductive Piece where
  | King
  | Queen
  | Knight
  | Pawn
  | Bishop
  | Rook
deriving DecidableEq, Repr

/-- Mirrors the Rust `Player` enum. -/
inductive Player where
  | White
  | Black
deriving DecidableEq, Repr

/-- Mirrors `get_allies_and_enemies`: orders the two raw per-owner
position lists into (allies, enemies) relative to the acting player. -/
def get_allies_and_enemies (piece_player : Player)
    (white_pieces_positions black_pieces_positions : List BoardPosition) :
    List BoardPosition × List BoardPosition :=
  match piece_player with
  | .White => (white_pieces_positions, black_pieces_positions)
  | .Black => (black_pieces_positions, white_pieces_positions)

/-- The eight fixed knight offsets, in the order of the Rust `targets`
array. -/
def knightTargets : List (Int × Int) :=
  [(1, 2), (-1, 2), (2, 1), (2, -1), (1, -2), (-1, -2), (-2, 1), (-2, -1)]

/-- The Knight arm of `get_possible_moves`: for each of the eight
offsets, push `origin + offset` when it is in range and not
ally-occupied (the Rust `for i in 0..8` loop, lines 287-301). -/
def knightMoves (piece_position : BoardPosition)
    (allies_positions : List BoardPosition) : List (Int × Int) :=
  knightTargets.filterMap fun t =>
    let target := (piece_position.x + t.1, piece_position.y + t.2)
    if 0 ≤ target.1 ∧ target.1 ≤ 7 ∧ 0 ≤ target.2 ∧ target.2 ≤ 7 ∧
        BoardPosition.mk target.1 target.2 ∉ allies_positions then
      some target
    else
      none

/-- The pawn's per-step rank direction, from the Rust `y_modifier`
local: +1 for White, -1 for Black. -/
def y_modifier (piece_player : Player) : Int :=
  match piece_player with
  | .White => 1
  | .Black => -1

/-- The pawn's starting rank, from the Rust `starting_y` local: 1 for
White, 6 for Black. -/
def starting_y (piece_player : Player) : Int :=
  match piece_player with
  | .White => 1
  | .Black => 6

/-- The Pawn arm of `get_possible_moves` (lines 303-354): four
independently gated pushes, in source order — single step, double step,
right diagonal capture, left diagonal capture.  Note that, as in the
source, the double step checks only its destination (not the intervening
square) and the diagonal captures perform no range check of their own. -/
def pawnMoves (piece_position : BoardPosition) (piece_player : Player)
    (allies_positions enemies_positions : List BoardPosition) :
    List (Int × Int) :=
  let y_modifier : Int := y_modifier piece_player
  let starting_y : Int := starting_y piece_player
  (if BoardPosition.mk piece_position.x (piece_position.y + 1 * y_modifier) ∉
        allies_positions ∧
      BoardPosition.mk piece_position.x (piece_position.y + 1 * y_modifier) ∉
        enemies_positions ∧
      piece_position.y < 7 ∧ 0 < piece_position.y then
    [(piece_position.x, piece_position.y + 1 * y_modifier)]
  else []) ++
  (if BoardPosition.mk piece_position.x (piece_position.y + 2 * y_modifier) ∉
        allies_positions ∧
      BoardPosition.mk piece_position.x (piece_position.y + 2 * y_modifier) ∉
        enemies_positions ∧
      piece_position.y = starting_y then
    [(piece_position.x, piece_position.y + 2 * y_modifier)]
  else []) ++
  (if BoardPosition.mk (piece_position.x + 1) (piece_position.y + 1 * y_modifier) ∈
        enemies_positions then
    [(piece_position.x + 1, piece_position.y + 1 * y_modifier)]
  else []) ++
  (if BoardPosition.mk (piece_position.x - 1) (piece_position.y + 1 * y_modifier) ∈
        enemies_positions then
    [(piece_position.x - 1, piece_position.y + 1 * y_modifier)]
  else [])

/-- One ray of the `while path` sliding loop shared by the Bishop and
Rook arms (lines 374-399 and 421-446).  At chain index `chain` the loop
pushes the candidate square when it is not ally-occupied and in range
(stopping right after it when it is enemy-occupied) and otherwise stops;
`fuel` bounds the number of remaining iterations.  Fuel 8 reproduces the
Rust loop exactly: the loop stops at the first out-of-range square, and
eight consecutive in-range squares exhaust a board line, so the source
loop never performs more than 8 pushes. -/
def slide (piece_position : BoardPosition) (ex_pos : Int × Int)
    (allies_positions enemies_positions : List BoardPosition) :
    Nat → Int → List (Int × Int)
  | 0, _ => []
  | fuel + 1, chain =>
    let tx := piece_position.x + ex_pos.1 * chain
    let ty := piece_position.y + ex_pos.2 * chain
    if BoardPosition.mk tx ty ∉ allies_positions ∧
        0 ≤ tx ∧ tx ≤ 7 ∧ 0 ≤ ty ∧ ty ≤ 7 then
      (tx, ty) ::
        (if BoardPosition.mk tx ty ∈ enemies_positions then []
         else slide piece_position ex_pos allies_positions enemies_positions
            fuel (chain + 1))
    else []

/-- The four Bishop ray directions, in the order of the Rust `match i`. -/
def bishopDirs : List (Int × Int) := [(1, 1), (1, -1), (-1, 1), (-1, -1)]

/-- The four Rook ray directions, in the order of the Rust `match i`. -/
def rookDirs : List (Int × Int) := [(0, 1), (0, -1), (1, 0), (-1, 0)]

/-- The sliding arms of `get_possible_moves`: each direction of `dirs`
is walked independently to exhaustion (starting at chain 1), results
concatenated in direction order. -/
def slideMoves (piece_position : BoardPosition) (dirs : List (Int × Int))
    (allies_positions enemies_positions : List BoardPosition) :
    List (Int × Int) :=
  dirs.flatMap fun ex_pos =>
    slide piece_position ex_pos allies_positions enemies_positions 8 1

/-- Mirrors `get_possible_moves` (lines 257-452): dispatch on the piece
kind; King and Queen fall through with no pushes. -/
def get_possible_moves (piece_type : Piece) (piece_position : BoardPosition)
    (piece_player : Player)
    (white_pieces_positions black_pieces_positions : List BoardPosition) :
    List (Int × Int) :=
  match piece_type with
  | .King => []
  | .Queen => []
  | .Knight =>
    let ae := get_allies_and_enemies piece_player white_pieces_positions
      black_pieces_positions
    knightMoves piece_position ae.1
  | .Pawn =>
    let ae := get_allies_and_enemies piece_player white_pieces_positions
      black_pieces_positions
    pawnMoves piece_position piece_player ae.1 ae.2
  | .Bishop =>
    let ae := get_allies_and_enemies piece_player white_pieces_positions
      black_pieces_positions
    slideMoves piece_position bishopDirs ae.1 ae.2
  | .Rook =>
    let ae := get_allies_and_enemies piece_player white_pieces_positions
      black_pieces_positions
    slideMoves piece_position rookDirs ae.1 ae.2

/-- A square is on the 8x8 board: both coordinates in `[0, 7]`, the
bounds the source checks literally. -/
def inRange (q : Int × Int) : Prop :=
  0 ≤ q.1 ∧ q.1 ≤ 7 ∧ 0 ≤ q.2 ∧ q.2 ≤ 7

instance (q : Int × Int) : Decidable (inRange q) := by
  unfold inRange; infer_instance

/-! ### Characterization lemmas -/

/-- Membership in a conditionally pushed singleton. -/
theorem mem_ite_singleton {α : Type} {c : Prop} [Decidable c] (d q : α) :
    (q ∈ if c then [d] else []) ↔ c ∧ q = d := by
  split_ifs with h <;> simp [h]

/-- Membership in the pawn result is exactly the disjunction of the four
independent gates, each paired with its own destination. -/
theorem mem_pawnMoves (pos : BoardPosition) (pl : Player)
    (al en : List BoardPosition) (q : Int × Int) :
    q ∈ pawnMoves pos pl al en ↔
      (q = (pos.x, pos.y + 1 * y_modifier pl) ∧
        BoardPosition.mk pos.x (pos.y + 1 * y_modifier pl) ∉ al ∧
        BoardPosition.mk pos.x (pos.y + 1 * y_modifier pl) ∉ en ∧
        pos.y < 7 ∧ 0 < pos.y) ∨
      (q = (pos.x, pos.y + 2 * y_modifier pl) ∧
        BoardPosition.mk pos.x (pos.y + 2 * y_modifier pl) ∉ al ∧
        BoardPosition.mk pos.x (pos.y + 2 * y_modifier pl) ∉ en ∧
        pos.y = starting_y pl) ∨
      (q = (pos.x + 1, pos.y + 1 * y_modifier pl) ∧
        BoardPosition.mk (pos.x + 1) (pos.y + 1 * y_modifier pl) ∈ en) ∨
      (q = (pos.x - 1, pos.y + 1 * y_modifier pl) ∧
        BoardPosition.mk (pos.x - 1) (pos.y + 1 * y_modifier pl) ∈ en) := by
  simp only [pawnMoves, List.mem_append, mem_ite_singleton]
  tauto

/-- Membership in the knight result: some offset of the eight whose
guard (in range, not ally-occupied) holds reaches the square. -/
theorem mem_knightMoves (pos : BoardPosition) (al : List BoardPosition)
    (q : Int × Int) :
    q ∈ knightMoves pos al ↔
      ∃ t ∈ knightTargets,
        (0 ≤ pos.x + t.1 ∧ pos.x + t.1 ≤ 7 ∧ 0 ≤ pos.y + t.2 ∧
          pos.y + t.2 ≤ 7 ∧
          BoardPosition.mk (pos.x + t.1) (pos.y + t.2) ∉ al) ∧
        q = (pos.x + t.1, pos.y + t.2) := by
  simp only [knightMoves, List.mem_filterMap, Option.ite_none_right_eq_some,
    Option.some.injEq]
  constructor
  · rintro ⟨t, ht, h, hq⟩
    exact ⟨t, ht, h, hq.symm⟩
  · rintro ⟨t, ht, h, hq⟩
    exact ⟨t, ht, h, hq.symm⟩

/-! ### Claim theorems (pawn gates, King/Queen) -/

/-- C1: for the pawn, the four candidate moves (forward step, double
step, right and left diagonal captures) are gated by four independent
conditions — a square is in the result exactly when the gate of one of
the four candidates holds for it, regardless of the other gates — and,
concretely, a White pawn at (4,1) with enemy pieces at (5,2) and (3,2)
and nothing else on the board yields exactly
{(4,2), (4,3), (5,2), (3,2)}. -/
theorem C1_pawn_gates_independent :
    (∀ (pos : BoardPosition) (pl : Player) (w b : List BoardPosition)
        (q : Int × Int),
      q ∈ get_possible_moves .Pawn pos pl w b ↔
        (q = (pos.x, pos.y + 1 * y_modifier pl) ∧
          BoardPosition.mk pos.x (pos.y + 1 * y_modifier pl) ∉
            (get_allies_and_enemies pl w b).1 ∧
          BoardPosition.mk pos.x (pos.y + 1 * y_modifier pl) ∉
            (get_allies_and_enemies pl w b).2 ∧
          pos.y < 7 ∧ 0 < pos.y) ∨
        (q = (pos.x, pos.y + 2 * y_modifier pl) ∧
          BoardPosition.mk pos.x (pos.y + 2 * y_modifier pl) ∉
            (get_allies_and_enemies pl w b).1 ∧
          BoardPosition.mk pos.x (pos.y + 2 * y_modifier pl) ∉
            (get_allies_and_enemies pl w b).2 ∧
          pos.y = starting_y pl) ∨
        (q = (pos.x + 1, pos.y + 1 * y_modifier pl) ∧
          BoardPosition.mk (pos.x + 1) (pos.y + 1 * y_modifier pl) ∈
            (get_allies_and_enemies pl w b).2) ∨
        (q = (pos.x - 1, pos.y + 1 * y_modifier pl) ∧
          BoardPosition.mk (pos.x - 1) (pos.y + 1 * y_modifier pl) ∈
            (get_allies_and_enemies pl w b).2)) ∧
    get_possible_moves .Pawn ⟨4, 1⟩ .White [] [⟨5, 2⟩, ⟨3, 2⟩] =
      [(4, 2), (4, 3), (5, 2), (3, 2)] := by
  constructor
  · intro pos pl w b q
    exact mem_pawnMoves pos pl (get_allies_and_enemies pl w b).1
      (get_allies_and_enemies pl w b).2 q
  · rfl

/-- C2 (counterexample): a White pawn at (4,1) whose intervening square
(4,2) is enemy-occupied still gets the double-step destination (4,3) in
its result, so the double step is not conditioned on the intervening
square being empty. -/
theorem C2_counterexample_intervening_ignored :
    ((4 : Int), (3 : Int)) ∈
        get_possible_moves .Pawn ⟨4, 1⟩ .White [] [⟨4, 2⟩] ∧
      BoardPosition.mk 4 2 ∈ ([⟨4, 2⟩] : List BoardPosition) := by
  decide

/-- C2 (amended): for every pawn call, the double-step destination is in
the result iff the origin is on the owner's starting rank and the
destination square itself is empty — the intervening square is not
consulted. -/
theorem C2_amended_double_step_rule :
    ∀ (pos : BoardPosition) (pl : Player) (w b : List BoardPosition),
      (pos.x, pos.y + 2 * y_modifier pl) ∈
          get_possible_moves .Pawn pos pl w b ↔
        pos.y = starting_y pl ∧
        BoardPosition.mk pos.x (pos.y + 2 * y_modifier pl) ∉
          (get_allies_and_enemies pl w b).1 ∧
        BoardPosition.mk pos.x (pos.y + 2 * y_modifier pl) ∉
          (get_allies_and_enemies pl w b).2 := by
  intro pos pl w b
  have hm : y_modifier pl = 1 ∨ y_modifier pl = -1 := by
    cases pl <;> simp [y_modifier]
  refine Iff.trans (mem_pawnMoves pos pl (get_allies_and_enemies pl w b).1
    (get_allies_and_enemies pl w b).2 _) ?_
  constructor
  · rintro (⟨hq, _⟩ | ⟨_, hal, hen, hy⟩ | ⟨hq, _⟩ | ⟨hq, _⟩)
    · injection hq with hx hy
      rcases hm with h | h <;> rw [h] at hy <;> omega
    · exact ⟨hy, hal, hen⟩
    · injection hq with hx hy
      omega
    · injection hq with hx hy
      omega
  · rintro ⟨hy, hal, hen⟩
    exact Or.inr (Or.inl ⟨rfl, hal, hen, hy⟩)

/-- C8: for every pawn call, the double-step destination is in the
result iff that square is absent from both occupancy sets and the origin
rank equals the side's starting rank (1 for White, 6 for Black); no
condition on the intervening square is imposed, matching the source. -/
theorem C8_double_step_destination_only :
    ∀ (pos : BoardPosition) (pl : Player) (w b : List BoardPosition),
      (pos.x, pos.y + 2 * y_modifier pl) ∈
          get_possible_moves .Pawn pos pl w b ↔
        BoardPosition.mk pos.x (pos.y + 2 * y_modifier pl) ∉
            (get_allies_and_enemies pl w b).1 ∧
          BoardPosition.mk pos.x (pos.y + 2 * y_modifier pl) ∉
            (get_allies_and_enemies pl w b).2 ∧
          pos.y = starting_y pl := by
  intro pos pl w b
  have hm : y_modifier pl = 1 ∨ y_modifier pl = -1 := by
    cases pl <;> simp [y_modifier]
  refine Iff.trans (mem_pawnMoves pos pl (get_allies_and_enemies pl w b).1
    (get_allies_and_enemies pl w b).2 _) ?_
  constructor
  · rintro (⟨hq, _⟩ | ⟨_, hal, hen, hy⟩ | ⟨hq, _⟩ | ⟨hq, _⟩)
    · injection hq with hx hy
      rcases hm with h | h <;> rw [h] at hy <;> omega
    · exact ⟨hal, hen, hy⟩
    · injection hq with hx hy
      omega
    · injection hq with hx hy
      omega
  · rintro ⟨hal, hen, hy⟩
    exact Or.inr (Or.inl ⟨rfl, hal, hen, hy⟩)

/-- C7: the King and Queen arms of the generator return the empty list
for every owner, origin and pair of occupancy collections; being a total
function, the generator never raises an error or aborts on them. -/
theorem C7_king_queen_empty :
    ∀ (pos : BoardPosition) (pl : Player) (w b : List BoardPosition),
      get_possible_moves .King pos pl w b = [] ∧
        get_possible_moves .Queen pos pl w b = [] :=
  fun _ _ _ _ => ⟨rfl, rfl⟩

/-! ### Sliding-ray machinery -/

/-- Unfolding equation of the ray walk at fuel 0. -/
theorem slide_zero (pos : BoardPosition) (d : Int × Int)
    (al en : List BoardPosition) (chain : Int) :
    slide pos d al en 0 chain = [] := rfl

/-- Unfolding equation of the ray walk at positive fuel. -/
theorem slide_succ (pos : BoardPosition) (d : Int × Int)
    (al en : List BoardPosition) (fuel : Nat) (chain : Int) :
    slide pos d al en (fuel + 1) chain =
      if BoardPosition.mk (pos.x + d.1 * chain) (pos.y + d.2 * chain) ∉ al ∧
          0 ≤ pos.x + d.1 * chain ∧ pos.x + d.1 * chain ≤ 7 ∧
          0 ≤ pos.y + d.2 * chain ∧ pos.y + d.2 * chain ≤ 7 then
        (pos.x + d.1 * chain, pos.y + d.2 * chain) ::
          (if BoardPosition.mk (pos.x + d.1 * chain) (pos.y + d.2 * chain) ∈ en
           then []
           else slide pos d al en fuel (chain + 1))
      else [] := rfl

/-- The square at chain index `c` along direction `d` from `pos`. -/
def raySq (pos : BoardPosition) (d : Int × Int) (c : Int) : Int × Int :=
  (pos.x + d.1 * c, pos.y + d.2 * c)

/-- The condition under which the sliding loop pushes the square at
chain index `c` and keeps walking: not ally-occupied, and in range. -/
def rayOpen (pos : BoardPosition) (d : Int × Int)
    (al : List BoardPosition) (c : Int) : Prop :=
  BoardPosition.mk (raySq pos d c).1 (raySq pos d c).2 ∉ al ∧
    inRange (raySq pos d c)

instance (pos : BoardPosition) (d : Int × Int) (al : List BoardPosition)
    (c : Int) : Decidable (rayOpen pos d al c) := by
  unfold rayOpen; infer_instance

/-- Full characterization of membership in one fuel-bounded ray walk:
the square at chain index `c` is produced exactly when index `c` itself
is open and every index from `chain` up to `c` exclusive was open and
not an enemy capture. -/
theorem mem_slide (pos : BoardPosition) (d : Int × Int)
    (al en : List BoardPosition) (q : Int × Int) :
    ∀ (fuel : Nat) (chain : Int),
      q ∈ slide pos d al en fuel chain ↔
        ∃ c : Int, chain ≤ c ∧ c < chain + fuel ∧ q = raySq pos d c ∧
          rayOpen pos d al c ∧
          ∀ j : Int, chain ≤ j → j < c →
            rayOpen pos d al j ∧
            BoardPosition.mk (raySq pos d j).1 (raySq pos d j).2 ∉ en := by
  intro fuel
  induction fuel with
  | zero =>
    intro chain
    rw [slide_zero]
    simp only [List.not_mem_nil, false_iff, not_exists]
    rintro c ⟨hc1, hc2, -⟩
    omega
  | succ fuel ih =>
    intro chain
    rw [slide_succ]
    split_ifs with h1 h2
    · rw [List.mem_singleton]
      constructor
      · intro hq
        exact ⟨chain, le_refl _, by omega, hq, h1,
          fun j hj hj' => absurd hj' (not_lt.mpr hj)⟩
      · rintro ⟨c, hc1, hc2, hq, hco, hprev⟩
        rcases eq_or_lt_of_le hc1 with hcc | hcc
        · rw [← hcc] at hq
          exact hq
        · exact absurd h2 (hprev chain (le_refl _) hcc).2
    · rw [List.mem_cons, ih (chain + 1)]
      constructor
      · rintro (hq | ⟨c, hc1, hc2, hq, hco, hprev⟩)
        · exact ⟨chain, le_refl _, by omega, hq, h1,
            fun j hj hj' => absurd hj' (not_lt.mpr hj)⟩
        · refine ⟨c, by omega, by omega, hq, hco, ?_⟩
          intro j hj hj'
          rcases eq_or_lt_of_le hj with hj0 | hj0
          · subst hj0
            exact ⟨h1, h2⟩
          · exact hprev j (by omega) hj'
      · rintro ⟨c, hc1, hc2, hq, hco, hprev⟩
        rcases eq_or_lt_of_le hc1 with hcc | hcc
        · left
          rw [← hcc] at hq
          exact hq
        · right
          refine ⟨c, by omega, by omega, hq, hco, ?_⟩
          intro j hj hj'
          exact hprev j (by omega) hj'
    · simp only [List.not_mem_nil, false_iff, not_exists]
      rintro c ⟨hc1, hc2, hq, hco, hprev⟩
      rcases eq_or_lt_of_le hc1 with hcc | hcc
      · rw [← hcc] at hco
        exact h1 hco
      · exact h1 (hprev chain (le_refl _) hcc).1

/-- Membership in a sliding result is membership in the walk of one of
the directions. -/
theorem mem_slideMoves (pos : BoardPosition) (dirs : List (Int × Int))
    (al en : List BoardPosition) (q : Int × Int) :
    q ∈ slideMoves pos dirs al en ↔
      ∃ d ∈ dirs, q ∈ slide pos d al en 8 1 := by
  simp [slideMoves, List.mem_flatMap]

/-- Within one ray with a nonzero direction, distinct chain indices give
distinct squares. -/
theorem raySq_inj (pos : BoardPosition) (d : Int × Int)
    (hd : d.1 ≠ 0 ∨ d.2 ≠ 0) {c c' : Int}
    (h : raySq pos d c = raySq pos d c') : c = c' := by
  simp only [raySq, Prod.mk.injEq] at h
  obtain ⟨h1, h2⟩ := h
  rcases hd with hd | hd
  · exact mul_left_cancel₀ hd (by omega)
  · exact mul_left_cancel₀ hd (by omega)

/-- All eight ray directions occurring in the source (Bishop followed by
Rook). -/
def allDirs : List (Int × Int) := bishopDirs ++ rookDirs

/-- At chain indices at least 1, the rays of two source directions from
one origin only meet when direction and index agree. -/
theorem raySq_eq_unique (pos : BoardPosition) {d d' : Int × Int}
    (hd : d ∈ allDirs) (hd' : d' ∈ allDirs) {c c' : Int}
    (hc : 1 ≤ c) (hc' : 1 ≤ c')
    (h : raySq pos d c = raySq pos d' c') : d = d' ∧ c = c' := by
  simp only [raySq, Prod.mk.injEq] at h
  obtain ⟨h1, h2⟩ := h
  simp only [allDirs, bishopDirs, rookDirs, List.mem_append,
    List.mem_cons, List.not_mem_nil, or_false] at hd hd'
  rcases hd with (rfl | rfl | rfl | rfl) | rfl | rfl | rfl | rfl <;>
    rcases hd' with (rfl | rfl | rfl | rfl) | rfl | rfl | rfl | rfl <;>
      · simp only [Prod.mk.injEq, true_and, and_true]
        omega

/-- From an in-range origin, the square eight steps out along any source
direction is off the board. -/
theorem raySq_eight_not_inRange (pos : BoardPosition) {d : Int × Int}
    (hd : d ∈ allDirs) (hpos : inRange (pos.x, pos.y)) :
    ¬ inRange (raySq pos d 8) := by
  simp only [allDirs, bishopDirs, rookDirs, List.mem_append,
    List.mem_cons, List.not_mem_nil, or_false] at hd
  simp only [inRange] at hpos
  rcases hd with (rfl | rfl | rfl | rfl) | rfl | rfl | rfl | rfl <;>
    · simp only [raySq, inRange]
      omega

/-- If a ray from an in-range origin is in range at every index below
`k`, then `k` is at most 8. -/
theorem ray_clear_le_eight (pos : BoardPosition) {d : Int × Int}
    (hd : d ∈ allDirs) (hpos : inRange (pos.x, pos.y)) {k : Int}
    (hpre : ∀ j : Int, 1 ≤ j → j < k → inRange (raySq pos d j)) :
    k ≤ 8 := by
  by_contra hgt
  push_neg at hgt
  exact raySq_eight_not_inRange pos hd hpos (hpre 8 (by omega) (by omega))

/-- The ray directions a sliding piece kind walks (empty for the
non-sliding kinds). -/
def slideDirs : Piece → List (Int × Int)
  | .Bishop => bishopDirs
  | .Rook => rookDirs
  | _ => []

/-- The directions of a sliding piece are among the eight source
directions. -/
theorem slideDirs_subset_allDirs {pc : Piece}
    (hpc : pc = Piece.Bishop ∨ pc = Piece.Rook) :
    ∀ d ∈ slideDirs pc, d ∈ allDirs := by
  intro d hd
  rcases hpc with rfl | rfl
  · exact List.mem_append_left rookDirs hd
  · exact List.mem_append_right bishopDirs hd

/-- For a sliding piece the generator is exactly the walk of its
direction set. -/
theorem get_possible_moves_slide {pc : Piece}
    (hpc : pc = Piece.Bishop ∨ pc = Piece.Rook) (pos : BoardPosition)
    (pl : Player) (w b : List BoardPosition) :
    get_possible_moves pc pos pl w b =
      slideMoves pos (slideDirs pc) (get_allies_and_enemies pl w b).1
        (get_allies_and_enemies pl w b).2 := by
  rcases hpc with rfl | rfl <;> rfl

/-- Membership of an on-ray square in a sliding result, for chain
indices at least 1: only its own ray can contribute it, under its own
walk conditions. -/
theorem raySq_mem_slideMoves {pc : Piece}
    (hpc : pc = Piece.Bishop ∨ pc = Piece.Rook) (pos : BoardPosition)
    (al en : List BoardPosition) {d : Int × Int} (hd : d ∈ slideDirs pc)
    {m : Int} (hm : 1 ≤ m) :
    raySq pos d m ∈ slideMoves pos (slideDirs pc) al en ↔
      m < 9 ∧ rayOpen pos d al m ∧
        ∀ j : Int, 1 ≤ j → j < m →
          rayOpen pos d al j ∧
          BoardPosition.mk (raySq pos d j).1 (raySq pos d j).2 ∉ en := by
  rw [mem_slideMoves]
  constructor
  · rintro ⟨d', hd', hq⟩
    rw [mem_slide] at hq
    obtain ⟨c, hc1, hc2, hqc, hco, hprev⟩ := hq
    obtain ⟨rfl, rfl⟩ := raySq_eq_unique pos
      (slideDirs_subset_allDirs hpc d hd)
      (slideDirs_subset_allDirs hpc d' hd') hm (by omega) hqc
    exact ⟨by omega, hco, fun j hj hj' => hprev j hj hj'⟩
  · rintro ⟨hm9, hco, hprev⟩
    refine ⟨d, hd, ?_⟩
    rw [mem_slide]
    exact ⟨m, by omega, by omega, rfl, hco, fun j hj hj' => hprev j hj hj'⟩

/-- C3: for a Bishop or a Rook, along any of its ray directions from an
in-range origin, with the squares strictly before chain index `k` all
in range and unoccupied: (1) if the square at `k` is ally-occupied,
neither it nor any square farther out on the ray is in the result;
(2) if it is in range and enemy-occupied, it is in the result and no
square farther out on the ray is; (3) if it is in range and empty, it
is in the result (so every empty in-range square before the first
blocker appears). -/
theorem C3_sliding_ray_blocking :
    ∀ (pc : Piece) (pos : BoardPosition) (pl : Player)
      (w b : List BoardPosition) (d : Int × Int) (k : Int),
      pc = Piece.Bishop ∨ pc = Piece.Rook →
      d ∈ slideDirs pc →
      inRange (pos.x, pos.y) →
      1 ≤ k →
      (∀ j : Int, 1 ≤ j → j < k →
        inRange (raySq pos d j) ∧
        BoardPosition.mk (raySq pos d j).1 (raySq pos d j).2 ∉
          (get_allies_and_enemies pl w b).1 ∧
        BoardPosition.mk (raySq pos d j).1 (raySq pos d j).2 ∉
          (get_allies_and_enemies pl w b).2) →
      ((BoardPosition.mk (raySq pos d k).1 (raySq pos d k).2 ∈
          (get_allies_and_enemies pl w b).1 →
        ∀ m : Int, k ≤ m →
          raySq pos d m ∉ get_possible_moves pc pos pl w b) ∧
       (BoardPosition.mk (raySq pos d k).1 (raySq pos d k).2 ∉
          (get_allies_and_enemies pl w b).1 →
        BoardPosition.mk (raySq pos d k).1 (raySq pos d k).2 ∈
          (get_allies_and_enemies pl w b).2 →
        inRange (raySq pos d k) →
        raySq pos d k ∈ get_possible_moves pc pos pl w b ∧
          ∀ m : Int, k < m →
            raySq pos d m ∉ get_possible_moves pc pos pl w b) ∧
       (BoardPosition.mk (raySq pos d k).1 (raySq pos d k).2 ∉
          (get_allies_and_enemies pl w b).1 →
        BoardPosition.mk (raySq pos d k).1 (raySq pos d k).2 ∉
          (get_allies_and_enemies pl w b).2 →
        inRange (raySq pos d k) →
        raySq pos d k ∈ get_possible_moves pc pos pl w b)) := by
  intro pc pos pl w b d k hpc hd hpos hk hpre
  rw [get_possible_moves_slide hpc]
  have hk8 : k ≤ 8 := ray_clear_le_eight pos
    (slideDirs_subset_allDirs hpc d hd) hpos fun j hj hj' => (hpre j hj hj').1
  refine ⟨?_, ?_, ?_⟩
  · intro hal m hm hmem
    rw [raySq_mem_slideMoves hpc pos _ _ hd (by omega)] at hmem
    obtain ⟨-, hco, hprev⟩ := hmem
    rcases eq_or_lt_of_le hm with hkm | hkm
    · rw [← hkm] at hco
      exact hco.1 hal
    · exact (hprev k hk hkm).1.1 hal
  · intro hal hen hr
    constructor
    · rw [raySq_mem_slideMoves hpc pos _ _ hd hk]
      exact ⟨by omega, ⟨hal, hr⟩, fun j hj hj' =>
        ⟨⟨(hpre j hj hj').2.1, (hpre j hj hj').1⟩, (hpre j hj hj').2.2⟩⟩
    · intro m hm hmem
      rw [raySq_mem_slideMoves hpc pos _ _ hd (by omega)] at hmem
      obtain ⟨-, -, hprev⟩ := hmem
      exact (hprev k hk hm).2 hen
  · intro hal hen hr
    rw [raySq_mem_slideMoves hpc pos _ _ hd hk]
    exact ⟨by omega, ⟨hal, hr⟩, fun j hj hj' =>
      ⟨⟨(hpre j hj hj').2.1, (hpre j hj hj').1⟩, (hpre j hj hj').2.2⟩⟩

/-- Every source direction has a nonzero component. -/
theorem allDirs_ne_zero {d : Int × Int} (hd : d ∈ allDirs) :
    d.1 ≠ 0 ∨ d.2 ≠ 0 := by
  simp only [allDirs, bishopDirs, rookDirs, List.mem_append, List.mem_cons,
    List.not_mem_nil, or_false] at hd
  rcases hd with (rfl | rfl | rfl | rfl) | rfl | rfl | rfl | rfl <;> simp

/-- One ray walk never pushes the same square twice. -/
theorem slide_nodup (pos : BoardPosition) (d : Int × Int)
    (al en : List BoardPosition) (hd : d.1 ≠ 0 ∨ d.2 ≠ 0) :
    ∀ (fuel : Nat) (chain : Int), (slide pos d al en fuel chain).Nodup := by
  intro fuel
  induction fuel with
  | zero =>
    intro chain
    rw [slide_zero]
    exact List.nodup_nil
  | succ fuel ih =>
    intro chain
    rw [slide_succ]
    split_ifs with h1 h2
    · simp
    · refine List.nodup_cons.mpr ⟨?_, ih (chain + 1)⟩
      intro hmem
      rw [mem_slide] at hmem
      obtain ⟨c, hc1, -, hqc, -, -⟩ := hmem
      have := @raySq_inj pos d hd chain c hqc
      omega
    · exact List.nodup_nil

/-- Ray walks of two distinct source directions share no square. -/
theorem slide_disjoint (pos : BoardPosition) (al en : List BoardPosition)
    {d d' : Int × Int} (hd : d ∈ allDirs) (hd' : d' ∈ allDirs)
    (hne : d ≠ d') :
    List.Disjoint (slide pos d al en 8 1) (slide pos d' al en 8 1) := by
  intro q hq hq'
  rw [mem_slide] at hq hq'
  obtain ⟨c, hc1, -, rfl, -, -⟩ := hq
  obtain ⟨c', hc1', -, hqc', -, -⟩ := hq'
  exact hne (raySq_eq_unique pos hd hd' (by omega) (by omega) hqc').1

/-- The walks of a duplicate-free list of source directions are
pairwise disjoint. -/
theorem slide_pairwise_disjoint (pos : BoardPosition)
    (al en : List BoardPosition) :
    ∀ (dirs : List (Int × Int)), (∀ d ∈ dirs, d ∈ allDirs) → dirs.Nodup →
      List.Pairwise
        (Function.onFun List.Disjoint fun d => slide pos d al en 8 1)
        dirs := by
  intro dirs
  induction dirs with
  | nil =>
    intro _ _
    exact List.Pairwise.nil
  | cons a l ih =>
    intro hsub hnd
    rw [List.nodup_cons] at hnd
    refine List.Pairwise.cons ?_
      (ih (fun d hd => hsub d (List.mem_cons_of_mem a hd)) hnd.2)
    intro d' hd'
    exact slide_disjoint pos al en (hsub a (List.mem_cons_self a l))
      (hsub d' (List.mem_cons_of_mem a hd'))
      (fun h => hnd.1 (h ▸ hd'))

/-- A sliding result over either source direction set has no duplicate
square. -/
theorem slideMoves_nodup (pos : BoardPosition) (al en : List BoardPosition)
    {dirs : List (Int × Int)} (hdirs : dirs = bishopDirs ∨ dirs = rookDirs) :
    (slideMoves pos dirs al en).Nodup := by
  have hsub : ∀ d ∈ dirs, d ∈ allDirs := by
    intro d hd
    rcases hdirs with rfl | rfl
    · exact List.mem_append_left rookDirs hd
    · exact List.mem_append_right bishopDirs hd
  have hnd : dirs.Nodup := by
    rcases hdirs with rfl | rfl <;> decide
  unfold slideMoves
  rw [List.nodup_flatMap]
  exact ⟨fun d hd => slide_nodup pos d al en (allDirs_ne_zero (hsub d hd)) 8 1,
    slide_pairwise_disjoint pos al en dirs hsub hnd⟩

/-- The knight result has no duplicate square. -/
theorem knightMoves_nodup (pos : BoardPosition) (al : List BoardPosition) :
    (knightMoves pos al).Nodup := by
  refine List.Nodup.filterMap ?_ (by decide)
  intro t t' q hq hq'
  rw [Option.mem_def, Option.ite_none_right_eq_some, Option.some.injEq] at hq hq'
  obtain ⟨-, hq⟩ := hq
  obtain ⟨-, hq'⟩ := hq'
  rw [← hq'] at hq
  rw [Prod.mk.injEq] at hq
  have h1 : t.1 = t'.1 ∧ t.2 = t'.2 := by omega
  exact Prod.ext h1.1 h1.2

/-- The pawn result has no duplicate square. -/
theorem pawnMoves_nodup (pos : BoardPosition) (pl : Player)
    (al en : List BoardPosition) : (pawnMoves pos pl al en).Nodup := by
  have hm : y_modifier pl = 1 ∨ y_modifier pl = -1 := by
    cases pl <;> simp [y_modifier]
  simp only [pawnMoves]
  rcases hm with hm | hm <;> rw [hm] <;>
    split_ifs <;> simp_all [List.nodup_cons, Prod.ext_iff] <;> omega

/-- C5: for every piece kind, owner, in-range origin and disjoint
occupancy sets, no square of the friendly set appears in the result. -/
theorem C5_never_friendly_square :
    ∀ (pc : Piece) (pos : BoardPosition) (pl : Player)
      (w b : List BoardPosition),
      inRange (pos.x, pos.y) →
      (∀ s : BoardPosition, s ∈ (get_allies_and_enemies pl w b).1 →
        s ∉ (get_allies_and_enemies pl w b).2) →
      ∀ q ∈ get_possible_moves pc pos pl w b,
        BoardPosition.mk q.1 q.2 ∉ (get_allies_and_enemies pl w b).1 := by
  intro pc pos pl w b hpos hdisj q hq
  cases pc with
  | King => exact absurd hq (List.not_mem_nil q)
  | Queen => exact absurd hq (List.not_mem_nil q)
  | Knight =>
    have hq' : q ∈ knightMoves pos (get_allies_and_enemies pl w b).1 := hq
    rw [mem_knightMoves] at hq'
    obtain ⟨t, ht, hcond, rfl⟩ := hq'
    exact hcond.2.2.2.2
  | Pawn =>
    have hq' : q ∈ pawnMoves pos pl (get_allies_and_enemies pl w b).1
        (get_allies_and_enemies pl w b).2 := hq
    rw [mem_pawnMoves] at hq'
    rcases hq' with ⟨rfl, hal, -, -⟩ | ⟨rfl, hal, -, -⟩ | ⟨rfl, hen⟩ | ⟨rfl, hen⟩
    · exact hal
    · exact hal
    · intro hal
      exact hdisj _ hal hen
    · intro hal
      exact hdisj _ hal hen
  | Bishop =>
    rw [get_possible_moves_slide (Or.inl rfl), mem_slideMoves] at hq
    obtain ⟨d, hd, hq⟩ := hq
    rw [mem_slide] at hq
    obtain ⟨c, -, -, rfl, hco, -⟩ := hq
    exact hco.1
  | Rook =>
    rw [get_possible_moves_slide (Or.inr rfl), mem_slideMoves] at hq
    obtain ⟨d, hd, hq⟩ := hq
    rw [mem_slide] at hq
    obtain ⟨c, -, -, rfl, hco, -⟩ := hq
    exact hco.1

/-- C6: a knight destination `origin + offset` is in the result iff it
is in range and not friendly-occupied; the enemy set plays no role. -/
theorem C6_knight_rule :
    ∀ (pos : BoardPosition) (pl : Player) (w b : List BoardPosition)
      (t : Int × Int),
      inRange (pos.x, pos.y) →
      t ∈ knightTargets →
      ((pos.x + t.1, pos.y + t.2) ∈ get_possible_moves .Knight pos pl w b ↔
        inRange (pos.x + t.1, pos.y + t.2) ∧
          BoardPosition.mk (pos.x + t.1) (pos.y + t.2) ∉
            (get_allies_and_enemies pl w b).1) := by
  intro pos pl w b t hpos ht
  constructor
  · intro hq
    have hq' : (pos.x + t.1, pos.y + t.2) ∈
        knightMoves pos (get_allies_and_enemies pl w b).1 := hq
    rw [mem_knightMoves] at hq'
    obtain ⟨t', ht', hcond, heq⟩ := hq'
    rw [Prod.mk.injEq] at heq
    have h1 : t.1 = t'.1 ∧ t.2 = t'.2 := by omega
    obtain ⟨e1, e2⟩ := h1
    rw [← e1, ← e2] at hcond
    exact ⟨⟨hcond.1, hcond.2.1, hcond.2.2.1, hcond.2.2.2.1⟩, hcond.2.2.2.2⟩
  · rintro ⟨hr, hal⟩
    show (pos.x + t.1, pos.y + t.2) ∈
      knightMoves pos (get_allies_and_enemies pl w b).1
    rw [mem_knightMoves]
    exact ⟨t, ht, ⟨hr.1, hr.2.1, hr.2.2.1, hr.2.2.2, hal⟩, rfl⟩

/-- C4 (counterexample): the pawn diagonal-capture arm performs no range
check of its own, so when the caller's enemy set contains the
out-of-range square (8,2), a White pawn at the in-range origin (7,1)
returns that out-of-range square. -/
theorem C4_counterexample_pawn_capture_off_board :
    ((8 : Int), (2 : Int)) ∈
        get_possible_moves .Pawn ⟨7, 1⟩ .White [] [⟨8, 2⟩] ∧
      ¬ inRange (8, 2) := by
  decide

/-- C4 (amended): for every piece kind and in-range origin, every square
of the result is in range provided every square of the caller's enemy
set is in range; the restriction is needed only by the pawn
diagonal-capture arm, which copies squares out of the enemy set without
a range check of its own. -/
theorem C4_amended_results_in_range :
    ∀ (pc : Piece) (pos : BoardPosition) (pl : Player)
      (w b : List BoardPosition),
      inRange (pos.x, pos.y) →
      (∀ s : BoardPosition, s ∈ (get_allies_and_enemies pl w b).2 →
        inRange (s.x, s.y)) →
      ∀ q ∈ get_possible_moves pc pos pl w b, inRange q := by
  intro pc pos pl w b hpos hen q hq
  cases pc with
  | King => exact absurd hq (List.not_mem_nil q)
  | Queen => exact absurd hq (List.not_mem_nil q)
  | Knight =>
    have hq' : q ∈ knightMoves pos (get_allies_and_enemies pl w b).1 := hq
    rw [mem_knightMoves] at hq'
    obtain ⟨t, ht, hcond, rfl⟩ := hq'
    exact ⟨hcond.1, hcond.2.1, hcond.2.2.1, hcond.2.2.2.1⟩
  | Pawn =>
    have hq' : q ∈ pawnMoves pos pl (get_allies_and_enemies pl w b).1
        (get_allies_and_enemies pl w b).2 := hq
    rw [mem_pawnMoves] at hq'
    have hpos' : 0 ≤ pos.x ∧ pos.x ≤ 7 ∧ 0 ≤ pos.y ∧ pos.y ≤ 7 := hpos
    have hm : y_modifier pl = 1 ∧ starting_y pl = 1 ∨
        y_modifier pl = -1 ∧ starting_y pl = 6 := by
      cases pl <;> simp [y_modifier, starting_y]
    rcases hq' with ⟨rfl, -, -, h7, h0⟩ | ⟨rfl, -, -, hsy⟩ |
      ⟨rfl, hin⟩ | ⟨rfl, hin⟩
    · show 0 ≤ pos.x ∧ pos.x ≤ 7 ∧ 0 ≤ pos.y + 1 * y_modifier pl ∧
        pos.y + 1 * y_modifier pl ≤ 7
      rcases hm with ⟨hm1, -⟩ | ⟨hm1, -⟩ <;> omega
    · show 0 ≤ pos.x ∧ pos.x ≤ 7 ∧ 0 ≤ pos.y + 2 * y_modifier pl ∧
        pos.y + 2 * y_modifier pl ≤ 7
      rcases hm with ⟨hm1, hm2⟩ | ⟨hm1, hm2⟩ <;> omega
    · exact hen _ hin
    · exact hen _ hin
  | Bishop =>
    rw [get_possible_moves_slide (Or.inl rfl), mem_slideMoves] at hq
    obtain ⟨d, hd, hq⟩ := hq
    rw [mem_slide] at hq
    obtain ⟨c, -, -, rfl, hco, -⟩ := hq
    exact hco.2
  | Rook =>
    rw [get_possible_moves_slide (Or.inr rfl), mem_slideMoves] at hq
    obtain ⟨d, hd, hq⟩ := hq
    rw [mem_slide] at hq
    obtain ⟨c, -, -, rfl, hco, -⟩ := hq
    exact hco.2

/-- C9: for every piece kind, owner, in-range origin and disjoint
occupancy sets, the result contains every square at most once. -/
theorem C9_no_duplicate_squares :
    ∀ (pc : Piece) (pos : BoardPosition) (pl : Player)
      (w b : List BoardPosition),
      inRange (pos.x, pos.y) →
      (∀ s : BoardPosition, s ∈ (get_allies_and_enemies pl w b).1 →
        s ∉ (get_allies_and_enemies pl w b).2) →
      (get_possible_moves pc pos pl w b).Nodup := by
  intro pc pos pl w b _ _
  cases pc with
  | King => exact List.nodup_nil
  | Queen => exact List.nodup_nil
  | Knight => exact knightMoves_nodup pos _
  | Pawn => exact pawnMoves_nodup pos pl _ _
  | Bishop => exact slideMoves_nodup pos _ _ (Or.inl rfl)
  | Rook => exact slideMoves_nodup pos _ _ (Or.inr rfl)

/-- C10: on an otherwise empty board, a White pawn at (f, r) produces
exactly the mirror image (x, y) ↦ (x, 7 - y) of the result of a Black
pawn at (f, 7 - r). -/
theorem C10_pawn_mirror_symmetry :
    ∀ (f r : Int),
      get_possible_moves .Pawn ⟨f, r⟩ .White [] [] =
        List.map (fun q => (q.1, 7 - q.2))
          (get_possible_moves .Pawn ⟨f, 7 - r⟩ .Black [] []) := by
  intro f r
  have hb1 : (7 - r < 7 ∧ 0 < 7 - r) ↔ (r < 7 ∧ 0 < r) := by omega
  have hb2 : (7 - r = 6) ↔ (r = 1) := by omega
  show pawnMoves ⟨f, r⟩ .White [] [] =
    List.map (fun q => (q.1, 7 - q.2)) (pawnMoves ⟨f, 7 - r⟩ .Black [] [])
  simp only [pawnMoves, y_modifier, starting_y, List.not_mem_nil,
    not_false_eq_true, true_and]
  simp only [hb1, hb2]
  split_ifs <;> simp [Prod.ext_iff] <;> omega

/-! ### Witnesses -/

/-- Witness for C3: a Rook at (0,0) on an empty board, direction (1,0),
chain index 1 — the empty in-range square (1,0) is in the result. -/
theorem C3_sliding_ray_blocking_witness :
    ((1 : Int), (0 : Int)) ∈ get_possible_moves .Rook ⟨0, 0⟩ .White [] [] :=
  (C3_sliding_ray_blocking .Rook ⟨0, 0⟩ .White [] [] (1, 0) 1 (Or.inr rfl)
      (by decide) (by decide) (by decide)
      (fun j hj hj' => absurd hj' (by omega))).2.2
    (by decide) (by decide) (by decide)

/-- Witness for C4 (amended): a White pawn at (4,1) with one in-range
enemy at (5,2) — the returned capture square (5,2) is in range. -/
theorem C4_amended_results_in_range_witness :
    inRange ((4 : Int), (1 : Int)) ∧ inRange ((5 : Int), (2 : Int)) :=
  ⟨by decide,
    C4_amended_results_in_range .Pawn ⟨4, 1⟩ .White [] [⟨5, 2⟩] (by decide)
      (by decide) (5, 2) (by decide)⟩

/-- Witness for C5: a White knight at (0,0) with a friendly piece at
(5,5) — the returned square (1,2) is not the friendly square. -/
theorem C5_never_friendly_square_witness :
    BoardPosition.mk 1 2 ∉ (get_allies_and_enemies .White [⟨5, 5⟩] []).1 :=
  C5_never_friendly_square .Knight ⟨0, 0⟩ .White [⟨5, 5⟩] [] (by decide)
    (by decide) (1, 2) (by decide)

/-- Witness for C6: a knight at (0,0) on an empty board with offset
(1,2) — the destination (1,2) is in the result iff in range and not
friendly-occupied, and here all three hold. -/
theorem C6_knight_rule_witness :
    inRange ((0 : Int), (0 : Int)) ∧
      ((1 : Int), (2 : Int)) ∈ knightTargets ∧
      (((0 : Int) + 1, (0 : Int) + 2) ∈
          get_possible_moves .Knight ⟨0, 0⟩ .White [] [] ↔
        inRange ((0 : Int) + 1, (0 : Int) + 2) ∧
          BoardPosition.mk ((0 : Int) + 1) ((0 : Int) + 2) ∉
            (get_allies_and_enemies .White [] []).1) :=
  ⟨by decide, by decide,
    C6_knight_rule ⟨0, 0⟩ .White [] [] (1, 2) (by decide) (by decide)⟩

/-- Witness for C9: the 14-square result of a Rook at (0,0) on an empty
board has no duplicates. -/
theorem C9_no_duplicate_squares_witness :
    (get_possible_moves .Rook ⟨0, 0⟩ .White [] []).Nodup :=
  C9_no_duplicate_squares .Rook ⟨0, 0⟩ .White [] [] (by decide) (by decide)

end ChessBevy
